import Mathlib

/-!
Verification of the medical-report analyzer (`reportanalyzer.py`).

The development shallowly embeds the core pipeline of the
`MedicalReportAnalyzer` class: text normalization (`_clean_text`),
pattern-based finding extraction (`extract_key_findings`), per-file
processing (`process_file`), batch processing (the main upload loop),
and summary generation (`generate_summary` / `format_summary`).

Strings are modelled as `List Char` (Python `str` is a sequence of code
points).  External libraries (PyPDF2, python-docx, UTF-8 decoding and the
NLTK sentence tokenizer) are modelled as parameters gathered in an
`Extractors` structure, each returning `Except Unit _` so that the
exceptions they may raise are visible.  Wall-clock timestamps
(`datetime.now()`) are outside the embedding: the `date` field of a
report and the `report_dates` list of the summary are omitted, and the
timestamp rendered by `format_summary` is passed in as a parameter.
-/

/-- Whitespace test used for the regex class `\s` of Python `re` on `str`
patterns and for `str.strip` / `str.split`: ASCII whitespace, the
C1 information separators, and the Unicode space/line/paragraph
separators. -/
def pyIsSpace (c : Char) : Bool :=
  let n := c.toNat
  (9 ≤ n && n ≤ 13) || (28 ≤ n && n ≤ 32) || n == 0x85 || n == 0xa0 ||
  n == 0x1680 || (0x2000 ≤ n && n ≤ 0x200a) || n == 0x2028 || n == 0x2029 ||
  n == 0x202f || n == 0x205f || n == 0x3000

/-- Printability test modelling Python `str.isprintable` for a single
character: false exactly for the Unicode categories Cc, Cf, Zs (other
than the space character U+0020), Zl and Zp.  The table below covers
ASCII and Latin-1 exactly, together with the general-purpose separator
and format characters; the remaining rare format characters are treated
as printable, which is irrelevant to the inputs this development
evaluates. -/
def pyIsPrintable (c : Char) : Bool :=
  let n := c.toNat
  if n < 0x20 then false
  else if n == 0x7f then false
  else if 0x80 ≤ n && n ≤ 0xa0 then false
  else if n == 0xad then false
  else if n == 0x1680 then false
  else if 0x2000 ≤ n && n ≤ 0x200f then false
  else if n == 0x2028 || n == 0x2029 then false
  else if n == 0x202f || n == 0x205f || n == 0x3000 then false
  else if 0x2060 ≤ n && n ≤ 0x2064 then false
  else true

/-- Worker for `collapseRuns`.  The flag records whether the scanner is
inside a run of characters satisfying `p`: the first character of each
run is replaced by `r`, the remaining characters of the run are
dropped. -/
def collapseRunsAux (p : Char → Bool) (r : Char) : Bool → List Char → List Char
  | _, [] => []
  | inRun, c :: cs =>
    if p c then
      if inRun then collapseRunsAux p r true cs
      else r :: collapseRunsAux p r true cs
    else c :: collapseRunsAux p r false cs

/-- Replacement of every maximal run of characters satisfying `p` by the
single character `r`.  `collapseRuns (· == '\n') '\n'` models
`re.sub(r'\n+', '\n', text)` and `collapseRuns pyIsSpace ' '` models
`re.sub(r'\s+', ' ', text)`. -/
def collapseRuns (p : Char → Bool) (r : Char) (s : List Char) : List Char :=
  collapseRunsAux p r false s

/-- Removal of trailing whitespace, second half of Python `str.strip`. -/
def stripEnd (s : List Char) : List Char :=
  (s.reverse.dropWhile pyIsSpace).reverse

/-- Python `str.strip()`: removal of leading and trailing whitespace. -/
def strip (s : List Char) : List Char :=
  stripEnd (s.dropWhile pyIsSpace)

/-- Embedding of `MedicalReportAnalyzer._clean_text` (reportanalyzer.py
lines 102-116): empty input is returned unchanged; otherwise runs of
newlines are collapsed to one newline, runs of whitespace are collapsed
to one space, characters that are neither printable nor `'\n'` are
removed, and the result is stripped. -/
def clean_text (text : List Char) : List Char :=
  if text = [] then []
  else
    let t1 := collapseRuns (fun c => c == '\n') '\n' text
    let t2 := collapseRuns pyIsSpace ' ' t1
    let t3 := t2.filter (fun c => pyIsPrintable c || c == '\n')
    strip t3

/-- Case-insensitive prefix match: if `s` starts with the keyword `k`
under `re.IGNORECASE` (character-wise lower-case comparison), the
remainder of `s` after the keyword is returned. -/
def beginsWithCI : List Char → List Char → Option (List Char)
  | [], s => some s
  | _, [] => none
  | k :: ks, c :: cs => if k.toLower = c.toLower then beginsWithCI ks cs else none

/-- Single-position matcher for the default patterns, which all have the
shape `(?:k1|k2|...)[:\s](.*?)(?:\n|$)` under `re.IGNORECASE`.  At the
current position the alternatives are tried in order; after a keyword the
next character must be `':'` or whitespace; the lazy group then captures
up to (excluding) the first newline or the end of the text, and the
match consumes the terminating newline when there is one.  On success
the captured group and the remaining text after the match are
returned. -/
def matchKV (alts : List (List Char)) (s : List Char) : Option (List Char × List Char) :=
  match alts with
  | [] => none
  | a :: rest =>
    match beginsWithCI a s with
    | some (c :: cs) =>
      if c = ':' ∨ pyIsSpace c then
        let g := cs.takeWhile (fun x => !(x == '\n'))
        let r := cs.dropWhile (fun x => !(x == '\n'))
        some (g, match r with | [] => [] | _ :: t => t)
      else matchKV rest s
    | _ => matchKV rest s

/-- Fuelled scanner implementing `re.finditer` for the pattern family of
`matchKV`: non-overlapping matches are found left to right, the scan
resuming after each match; the group-1 captures are returned in scan
order.  Every step either consumes at least one character or ends the
scan, so fuel `s.length + 1` (supplied by `findIter`) never runs
out. -/
def findIterAux (alts : List (List Char)) : Nat → List Char → List (List Char)
  | 0, _ => []
  | fuel + 1, s =>
    match matchKV alts s with
    | some (g, rest) => g :: findIterAux alts fuel rest
    | none =>
      match s with
      | [] => []
      | _ :: cs => findIterAux alts fuel cs

/-- All group-1 captures of a default-shape pattern over a text, in scan
order. -/
def findIter (alts : List (List Char)) (s : List Char) : List (List Char) :=
  findIterAux alts (s.length + 1) s

/-- Alternatives of the default `diagnoses` pattern
`(?:diagnosis|assessment|impression|diagnosed with)[:\s](.*?)(?:\n|$)`. -/
def diagAlts : List (List Char) :=
  ["diagnosis".data, "assessment".data, "impression".data, "diagnosed with".data]

/-- Alternatives of the default `medications` pattern. -/
def medAlts : List (List Char) :=
  ["medication".data, "drug".data, "prescription".data, "prescribed".data]

/-- Alternatives of the default `vitals` pattern. -/
def vitalAlts : List (List Char) :=
  ["vital".data, "measurement".data, "blood pressure".data, "temperature".data,
   "pulse".data, "height".data, "weight".data]

/-- Alternatives of the default `lab_results` pattern. -/
def labAlts : List (List Char) :=
  ["lab".data, "laboratory".data, "test".data, "result".data, "blood work".data]

/-- Alternatives of the default `recommendations` pattern. -/
def recAlts : List (List Char) :=
  ["recommendation".data, "plan".data, "follow up".data, "advised".data]

/-- A compiled pattern is represented extensionally by its `re.finditer`
group-1 capture function. -/
abbrev Matcher := List Char → List (List Char)

/-- A pattern-registry entry: `some m` is a pattern that compiles to the
matcher `m`; `none` is a pattern string that raises `re.error` when
`re.finditer` compiles it. -/
abbrev Pat := Option Matcher

/-- The default `findings_patterns` registry built in
`MedicalReportAnalyzer.__init__` (reportanalyzer.py lines 32-38). -/
def defaultPatterns : List (String × Pat) :=
  [("diagnoses", some (findIter diagAlts)),
   ("medications", some (findIter medAlts)),
   ("vitals", some (findIter vitalAlts)),
   ("lab_results", some (findIter labAlts)),
   ("recommendations", some (findIter recAlts))]

/-- Categorized findings: the Python dict mapping category names to
lists of extracted strings, as an insertion-ordered association
list. -/
abbrev Findings := List (String × List (List Char))

/-- The five fixed category names, in the dict's insertion order. -/
def categoryNames : List String :=
  ["diagnoses", "medications", "vitals", "lab_results", "recommendations"]

/-- The findings dict initialized at the top of `extract_key_findings`:
all five categories present, each empty. -/
def initFindings : Findings :=
  [("diagnoses", []), ("medications", []), ("vitals", []),
   ("lab_results", []), ("recommendations", [])]

/-- Python dict assignment `d[k] = v`: the value is replaced in place if
the key is present, else the pair is appended (insertion order). -/
def dictSet (d : Findings) (k : String) (v : List (List Char)) : Findings :=
  if d.any (fun p => p.1 = k) then
    d.map (fun p => if p.1 = k then (p.1, v) else p)
  else d ++ [(k, v)]

/-- Per-match post-processing of a group-1 capture (reportanalyzer.py
lines 143-148): strip, keep only non-empty results longer than 2
characters, then collapse inner whitespace runs and strip again. -/
def processMatch (g : List Char) : Option (List Char) :=
  let t := strip g
  if t ≠ [] ∧ 2 < t.length then some (strip (collapseRuns pyIsSpace ' ' t)) else none

/-- Post-processing of all captures of one pattern, in scan order. -/
def processMatches (gs : List (List Char)) : List (List Char) :=
  gs.filterMap processMatch

/-- Loop body of `extract_key_findings`: for each registry entry the
pattern is compiled (raising `re.error`, modelled by `Except.error`, on
an invalid pattern), the category's entry is reset and the processed
captures are appended. -/
def extractGo : List (String × Pat) → List Char → Findings → Except Unit Findings
  | [], _, f => .ok f
  | (_, none) :: _, _, _ => .error ()
  | (cat, some m) :: rest, content, f =>
    extractGo rest content (dictSet f cat (processMatches (m content)))

/-- Embedding of `MedicalReportAnalyzer.extract_key_findings`
(reportanalyzer.py lines 118-150), with the pattern registry passed
explicitly: empty content short-circuits to the initial dict, otherwise
each registry pattern is applied in order. -/
def extract_key_findings (patterns : List (String × Pat)) (content : List Char) :
    Except Unit Findings :=
  if content = [] then .ok initFindings
  else extractGo patterns content initFindings

/-- Raw uploaded bytes, abstract. -/
abbrev Bytes := List Nat

/-- The external collaborators used by `process_file`: the PyPDF2 text
extraction, UTF-8 decoding of a `.txt` upload, the python-docx
extraction, and the NLTK sentence tokenizer (represented by the length
of the list it returns).  Each may raise, modelled by `Except`. -/
structure Extractors where
  pdf : Bytes → Except Unit (List Char)
  txt : Bytes → Except Unit (List Char)
  docx : Bytes → Except Unit (List Char)
  sentCount : List Char → Except Unit Nat

/-- Final path component of a file name (the part after the last
`'/'`). -/
def lastComponent (name : List Char) : List Char :=
  (name.reverse.takeWhile (fun c => !(c == '/'))).reverse

/-- Embedding of `pathlib.Path(name).suffix`: the extension of the final
component from its last dot, empty when the dot is absent, leading
(hidden files) or trailing. -/
def pathSuffix (name : List Char) : List Char :=
  let base := lastComponent name
  let revTail := base.reverse.takeWhile (fun c => !(c == '.'))
  if revTail.length + 1 < base.length ∧ 0 < revTail.length then
    '.' :: revTail.reverse
  else []

/-- Python `str.lower`, character-wise. -/
def strToLower (s : List Char) : List Char := s.map Char.toLower

/-- Exception classes that can reach the `except` handler of
`process_file`: a text-extraction failure (decode error, corrupt PDF or
DOCX), an `re.error` from an invalid registry pattern, or a tokenizer
failure during metadata computation. -/
inductive PyError where
  | extractFailure
  | invalidPattern
  | metadataFailure
deriving DecidableEq

/-- Observable outcome of `process_file`: `success` is Python's `True`;
`unsupported` is the `st.warning` branch returning `False` for an
unrecognized extension; `caught e` is the `except` branch returning
`False` after exception `e`. -/
inductive ProcResult where
  | success
  | unsupported
  | caught (e : PyError)
deriving DecidableEq

/-- An uploaded file: its name and raw bytes. -/
structure RawFile where
  name : List Char
  bytes : Bytes

/-- Derived per-report metadata (reportanalyzer.py lines 75-79). -/
structure Metadata where
  word_count : Nat
  character_count : Nat
  sentence_count : Nat
deriving DecidableEq

/-- A document record as appended to `self.reports`.  The `date` field
(`datetime.now().isoformat()`) is wall-clock time and is outside the
embedding. -/
structure Report where
  name : List Char
  content : List Char
  type : List Char
  key_findings : Findings
  metadata : Metadata

/-- The cross-document summary dict built by `generate_summary`
(reportanalyzer.py lines 162-177).  The `report_dates` list is derived
from the omitted wall-clock `date` fields and is not modelled. -/
structure SummaryData where
  total_reports : Nat
  report_types : List (List Char × Nat)
  key_findings : List (String × List (List Char))
  total_word_count : Nat
  avg_sentences_per_report : ℚ

/-- Mutable state of a `MedicalReportAnalyzer` instance. -/
structure AnalyzerState where
  reports : List Report
  summary : Option SummaryData
  findings_patterns : List (String × Pat)

/-- Worker of `splitWs`, accumulating the current word reversed. -/
def splitWsAux : List Char → List Char → List (List Char)
  | [], acc => if acc = [] then [] else [acc.reverse]
  | c :: cs, acc =>
    if pyIsSpace c then
      if acc = [] then splitWsAux cs []
      else acc.reverse :: splitWsAux cs []
    else splitWsAux cs (c :: acc)

/-- Python `str.split()` with no argument: maximal runs of
non-whitespace characters. -/
def splitWs (s : List Char) : List (List Char) := splitWsAux s []

/-- Dispatch on the lower-cased filename suffix (reportanalyzer.py lines
56-64): `none` is the unsupported-format branch, otherwise the
format-appropriate extractor is applied.  `.doc` and `.docx` both go to
the python-docx extractor. -/
def dispatchExtract (ex : Extractors) (ext : List Char) (b : Bytes) :
    Option (Except Unit (List Char)) :=
  if ext = ".pdf".data then some (ex.pdf b)
  else if ext = ".txt".data then some (ex.txt b)
  else if ext = ".doc".data ∨ ext = ".docx".data then some (ex.docx b)
  else none

/-- The document record built by `process_file` on success
(reportanalyzer.py lines 69-80). -/
def mkReport (f : RawFile) (ext content : List Char) (kf : Findings) (sc : Nat) : Report :=
  { name := f.name
    content := content
    type := ext
    key_findings := kf
    metadata :=
      { word_count := (splitWs content).length
        character_count := content.length
        sentence_count := sc } }

/-- Embedding of `MedicalReportAnalyzer.process_file` (reportanalyzer.py
lines 40-87): the lower-cased suffix selects an extractor (unsupported
suffixes warn and return `False` before any extraction), the extracted
text is cleaned, findings and metadata are computed (`sent_tokenize` is
only invoked on non-empty content), and only then is the record
appended; every exception is caught and leaves the state unchanged. -/
def process_file (ex : Extractors) (st : AnalyzerState) (f : RawFile) :
    ProcResult × AnalyzerState :=
  let ext := strToLower (pathSuffix f.name)
  match dispatchExtract ex ext f.bytes with
  | none => (.unsupported, st)
  | some (.error _) => (.caught .extractFailure, st)
  | some (.ok raw) =>
    let content := clean_text raw
    match extract_key_findings st.findings_patterns content with
    | .error _ => (.caught .invalidPattern, st)
    | .ok kf =>
      match (if content = [] then Except.ok 0 else ex.sentCount content) with
      | .error _ => (.caught .metadataFailure, st)
      | .ok sc =>
        (.success, { st with reports := st.reports ++ [mkReport f ext content kf sc] })

/-- The batch loop of the upload tab (reportanalyzer.py lines 448-455):
each file is processed in order; a failure does not stop the loop. -/
def processBatch (ex : Extractors) (files : List RawFile) (st : AnalyzerState) :
    AnalyzerState :=
  files.foldl (fun s f => (process_file ex s f).2) st

/-- Embedding of `MedicalReportAnalyzer.clear_data`. -/
def clear_data (st : AnalyzerState) : AnalyzerState :=
  { st with reports := [], summary := none }

/-- Python string comparison (`sorted` order): lexicographic by code
point, a proper prefix comparing smaller. -/
def lexLe : List Char → List Char → Bool
  | [], _ => true
  | _ :: _, [] => false
  | a :: as, b :: bs => if a = b then lexLe as bs else decide (a.toNat < b.toNat)

/-- Python `set.update(items)` on a set represented by its list of
distinct elements in insertion order (the representation order is
irrelevant: `generate_summary` sorts before use). -/
def setUpdate (s : List (List Char)) (items : List (List Char)) : List (List Char) :=
  items.foldl (fun acc x => if x ∈ acc then acc else acc ++ [x]) s

/-- The `summary['key_findings']` dict as initialized in
`generate_summary` (reportanalyzer.py lines 166-172): the five
categories, each an empty set. -/
def initFindingSets : List (String × List (List Char)) :=
  [("diagnoses", []), ("medications", []), ("vitals", []),
   ("lab_results", []), ("recommendations", [])]

/-- Inner aggregation loop over one report's findings
(reportanalyzer.py lines 179-181): each of the report's categories
updates the corresponding summary set; a category absent from the
summary dict raises `KeyError`, modelled by `Except.error`. -/
def updFold : List (String × List (List Char)) → Findings →
    Except Unit (List (String × List (List Char)))
  | acc, [] => .ok acc
  | acc, (cat, items) :: rest =>
    if acc.any (fun p => p.1 = cat) then
      updFold (acc.map (fun p => if p.1 = cat then (p.1, setUpdate p.2 items) else p)) rest
    else .error ()

/-- Outer aggregation loop over all reports. -/
def collectFindings (acc : List (String × List (List Char))) :
    List Report → Except Unit (List (String × List (List Char)))
  | [] => .ok acc
  | r :: rs =>
    match updFold acc r.key_findings with
    | .error e => .error e
    | .ok acc2 => collectFindings acc2 rs

/-- Python `d[k] = d.get(k, 0) + 1` used by `_count_report_types`. -/
def dictBump (d : List (List Char × Nat)) (k : List Char) : List (List Char × Nat) :=
  if d.any (fun p => p.1 = k) then
    d.map (fun p => if p.1 = k then (p.1, p.2 + 1) else p)
  else d ++ [(k, 1)]

/-- Embedding of `MedicalReportAnalyzer._count_report_types`. -/
def count_report_types (reports : List Report) : List (List Char × Nat) :=
  reports.foldl (fun acc r => dictBump acc r.type) []

/-- The summary dict built by `generate_summary` for a non-empty report
list (reportanalyzer.py lines 162-187): per-category set union of all
document findings, converted to sorted lists (the source's final
`if not ...: []` rewrite of empty categories is the trailing
identity `if`), plus aggregate metadata; the average is the exact
rational value of the Python float division. -/
def buildSummary (reports : List Report) : Except Unit SummaryData :=
  match collectFindings initFindingSets reports with
  | .error e => .error e
  | .ok kf =>
    .ok
      { total_reports := reports.length
        report_types := count_report_types reports
        key_findings :=
          kf.map (fun p =>
            (p.1, let v := List.mergeSort p.2 lexLe; if v = [] then [] else v))
        total_word_count := (reports.map (fun r => r.metadata.word_count)).sum
        avg_sentences_per_report :=
          ((reports.map (fun r => (r.metadata.sentence_count : ℚ))).sum) /
            (reports.length : ℚ) }

/-- Value of `d[k]` in the summary findings dict, defaulting to the
empty list (the rendered keys are always present in dicts produced by
`buildSummary`). -/
def findGet (d : List (String × List (List Char))) (k : String) : List (List Char) :=
  ((d.find? (fun p => p.1 = k)).map Prod.snd).getD []

/-- Embedding of `MedicalReportAnalyzer._format_list`. -/
def format_list (items : List (List Char)) : List Char :=
  if items = [] then "- No findings in this category".data
  else List.intercalate "\n".data (items.map (fun i => "- ".data ++ i))

/-- The `File Types` line: `', '.join(f"..." ...)` over the format
counts. -/
def typesLine (ts : List (List Char × Nat)) : List Char :=
  List.intercalate ", ".data
    (ts.map (fun p => p.1 ++ " (".data ++ (toString p.2).data ++ ")".data))

/-- Rendering of a rational with one digit after the decimal point,
modelling Python `f"...:.1f"` applied to the exact value of the average
(round half to even; double-rounding artifacts of binary floats are
outside the embedding). -/
def fmt1 (q : ℚ) : List Char :=
  let t := q * 10
  let fl := ⌊t⌋
  let r := t - fl
  let n : ℤ :=
    if r < 1 / 2 then fl
    else if 1 / 2 < r then fl + 1
    else if fl % 2 = 0 then fl else fl + 1
  (toString (n / 10)).data ++ ".".data ++ (toString (n % 10).natAbs).data

/-- Embedding of `MedicalReportAnalyzer.format_summary`
(reportanalyzer.py lines 204-244), the generation timestamp passed in as
`now`. -/
def format_summary (now : List Char) (osd : Option SummaryData) : List Char :=
  match osd with
  | none => "No summary available.".data
  | some s =>
    "# Medical Report Summary\nGenerated: ".data ++ now ++
    "\n\n## Overview\n- **Total Reports**: ".data ++ (toString s.total_reports).data ++
    "\n- **File Types**: ".data ++ typesLine s.report_types ++
    "\n- **Total Words**: ".data ++ (toString s.total_word_count).data ++
    "\n- **Avg. Sentences/Report**: ".data ++ fmt1 s.avg_sentences_per_report ++
    "\n\n## Key Findings\n\n### Diagnoses:\n".data ++
    format_list (findGet s.key_findings "diagnoses") ++
    "\n\n### Medications:\n".data ++
    format_list (findGet s.key_findings "medications") ++
    "\n\n### Vital Signs:\n".data ++
    format_list (findGet s.key_findings "vitals") ++
    "\n\n### Lab Results:\n".data ++
    format_list (findGet s.key_findings "lab_results") ++
    "\n\n### Recommendations:\n".data ++
    format_list (findGet s.key_findings "recommendations") ++
    "\n\n## Important Note\nThe information above is automatically extracted and may not be complete or accurate.\nPlease verify all findings with healthcare professionals.\n        ".data

/-- Embedding of `MedicalReportAnalyzer.generate_summary`
(reportanalyzer.py lines 152-190): with no reports the fixed sentinel
string is returned and the state is untouched; otherwise the summary is
built (a `KeyError` raised by the aggregation loop propagates to the
caller, modelled by `Except.error`), stored in `self.summary`, and the
formatted text returned. -/
def generate_summary (now : List Char) (st : AnalyzerState) :
    Except Unit (List Char × AnalyzerState) :=
  if st.reports.isEmpty then .ok ("No reports have been processed yet.".data, st)
  else
    match buildSummary st.reports with
    | .error e => .error e
    | .ok s => .ok (format_summary now (some s), { st with summary := some s })

/-- Characters of a collapsed text: each is the replacement character or
a non-run character of the source. -/
theorem mem_collapseRunsAux {p : Char → Bool} {r c : Char} :
    ∀ {b : Bool} {s : List Char},
      c ∈ collapseRunsAux p r b s → c = r ∨ (p c = false ∧ c ∈ s) := by
  intro b s
  induction s generalizing b with
  | nil => simp [collapseRunsAux]
  | cons d ds ih =>
    intro h
    by_cases hp : p d = true
    · cases b with
      | true =>
        simp only [collapseRunsAux, hp, if_true] at h
        rcases ih h with h1 | h2
        · exact Or.inl h1
        · exact Or.inr ⟨h2.1, List.mem_cons_of_mem _ h2.2⟩
      | false =>
        simp only [collapseRunsAux, hp, if_true, Bool.false_eq_true, if_false] at h
        rcases List.mem_cons.mp h with h1 | h1
        · exact Or.inl h1
        · rcases ih h1 with h2 | h3
          · exact Or.inl h2
          · exact Or.inr ⟨h3.1, List.mem_cons_of_mem _ h3.2⟩
    · rw [show collapseRunsAux p r b (d :: ds) = d :: collapseRunsAux p r false ds by
        cases b <;> simp [collapseRunsAux, hp]] at h
      rcases List.mem_cons.mp h with h1 | h1
      · subst h1
        exact Or.inr ⟨Bool.eq_false_iff.mpr hp, List.mem_cons_self _ _⟩
      · rcases ih h1 with h2 | h3
        · exact Or.inl h2
        · exact Or.inr ⟨h3.1, List.mem_cons_of_mem _ h3.2⟩

/-- In the run state the scanner next emits a non-run character. -/
theorem head_collapseRunsAux_true {p : Char → Bool} {r : Char} :
    ∀ {s : List Char} {d : Char},
      (collapseRunsAux p r true s).head? = some d → p d = false := by
  intro s
  induction s with
  | nil => intro d h; simp [collapseRunsAux] at h
  | cons c cs ih =>
    intro d h
    by_cases hp : p c = true
    · simp only [collapseRunsAux, hp, if_true] at h
      exact ih h
    · rw [show collapseRunsAux p r true (c :: cs) = c :: collapseRunsAux p r false cs by
        simp [collapseRunsAux, hp]] at h
      simp only [List.head?_cons, Option.some.injEq] at h
      subst h
      exact Bool.eq_false_iff.mpr hp

/-- A collapsed text never has two adjacent run characters. -/
theorem chain'_collapseRunsAux {p : Char → Bool} {r : Char} :
    ∀ (s : List Char) (b : Bool),
      List.Chain' (fun a c => ¬(p a = true ∧ p c = true)) (collapseRunsAux p r b s) := by
  intro s
  induction s with
  | nil => intro b; simp [collapseRunsAux]
  | cons c cs ih =>
    intro b
    by_cases hp : p c = true
    · cases b with
      | true => simpa only [collapseRunsAux, hp, if_true] using ih true
      | false =>
        simp only [collapseRunsAux, hp, if_true, Bool.false_eq_true, if_false]
        rw [List.chain'_cons']
        refine ⟨?_, ih true⟩
        intro y hy hconj
        have := head_collapseRunsAux_true (p := p) (r := r) (s := cs) (Option.mem_def.mp hy)
        simp [this] at hconj
    · rw [show collapseRunsAux p r b (c :: cs) = c :: collapseRunsAux p r false cs by
        cases b <;> simp [collapseRunsAux, hp]]
      rw [List.chain'_cons']
      refine ⟨?_, ih false⟩
      intro y _ hconj
      exact hp hconj.1

/-- A text with no run character is unchanged by collapsing. -/
theorem collapseRunsAux_eq_self {p : Char → Bool} {r : Char} :
    ∀ {s : List Char} {b : Bool}, (∀ c ∈ s, p c = false) → collapseRunsAux p r b s = s := by
  intro s
  induction s with
  | nil => intro b _; rfl
  | cons c cs ih =>
    intro b h
    have hc : ¬ p c = true := by simp [h c (List.mem_cons_self _ _)]
    rw [show collapseRunsAux p r b (c :: cs) = c :: collapseRunsAux p r false cs by
      cases b <;> simp [collapseRunsAux, hc]]
    rw [ih fun d hd => h d (List.mem_cons_of_mem _ hd)]

/-- When the next character is not a run character the two scanner
states agree. -/
theorem collapseRunsAux_true_eq {p : Char → Bool} {r : Char} {s : List Char}
    (h : ∀ d, s.head? = some d → p d = false) :
    collapseRunsAux p r true s = collapseRunsAux p r false s := by
  cases s with
  | nil => rfl
  | cons c cs =>
    have hc : ¬ p c = true := by simp [h c rfl]
    simp [collapseRunsAux, hc]

/-- A text with no adjacent run characters, all of whose run characters
already equal the replacement, is a fixed point of collapsing. -/
theorem collapseRuns_eq_self {p : Char → Bool} {r : Char} :
    ∀ {s : List Char}, List.Chain' (fun a c => ¬(p a = true ∧ p c = true)) s →
      (∀ c ∈ s, p c = true → c = r) → collapseRuns p r s = s := by
  intro s
  induction s with
  | nil => intro _ _; rfl
  | cons c cs ih =>
    intro hch hall
    rw [List.chain'_cons'] at hch
    show collapseRunsAux p r false (c :: cs) = c :: cs
    by_cases hp : p c = true
    · have hcr : c = r := hall c (List.mem_cons_self _ _) hp
      have hhead : ∀ d, cs.head? = some d → p d = false := by
        intro d hd
        have := hch.1 d (Option.mem_def.mpr hd)
        by_contra hcon
        exact this ⟨hp, by simpa using hcon⟩
      simp only [collapseRunsAux, hp, if_true, Bool.false_eq_true, if_false]
      rw [collapseRunsAux_true_eq hhead]
      rw [show collapseRunsAux p r false cs = collapseRuns p r cs from rfl]
      rw [ih hch.2 fun d hd hpd => hall d (List.mem_cons_of_mem _ hd) hpd, hcr]
    · rw [show collapseRunsAux p r false (c :: cs) = c :: collapseRunsAux p r false cs by
        simp [collapseRunsAux, hp]]
      rw [show collapseRunsAux p r false cs = collapseRuns p r cs from rfl]
      rw [ih hch.2 fun d hd hpd => hall d (List.mem_cons_of_mem _ hd) hpd]

/-- A list whose head does not satisfy `p` is unchanged by
`dropWhile p`. -/
theorem dropWhile_eq_self_of_head {α : Type} {p : α → Bool} :
    ∀ {l : List α}, (∀ d, l.head? = some d → p d = false) → l.dropWhile p = l := by
  intro l h
  cases l with
  | nil => rfl
  | cons c cs => exact List.dropWhile_cons_of_neg (by simp [h c rfl])

/-- The stripped tail is a prefix of the original list. -/
theorem stripEnd_prefix_self (s : List Char) : stripEnd s <+: s := by
  obtain ⟨t, ht⟩ := List.dropWhile_suffix (l := s.reverse) pyIsSpace
  refine ⟨t.reverse, ?_⟩
  rw [stripEnd, ← List.reverse_append, ht, List.reverse_reverse]

/-- Characters survive into `stripEnd`. -/
theorem mem_stripEnd {c : Char} {s : List Char} (h : c ∈ stripEnd s) : c ∈ s :=
  (stripEnd_prefix_self s).subset h

/-- Characters survive into `strip`. -/
theorem mem_strip {c : Char} {s : List Char} (h : c ∈ strip s) : c ∈ s :=
  (List.dropWhile_sublist pyIsSpace).subset (mem_stripEnd h)

/-- The last character of a stripped list is not whitespace. -/
theorem getLast?_stripEnd {s : List Char} {d : Char}
    (h : (stripEnd s).getLast? = some d) : pyIsSpace d = false := by
  rw [stripEnd, List.getLast?_reverse] at h
  have := List.head?_dropWhile_not pyIsSpace s.reverse
  rw [h] at this
  exact this

/-- The head of a stripped list is the head of its input. -/
theorem head?_stripEnd {s : List Char} {d : Char}
    (h : (stripEnd s).head? = some d) : s.head? = some d := by
  obtain ⟨t, ht⟩ := stripEnd_prefix_self s
  rw [← ht, List.head?_append, h]
  rfl

/-- The first character of `strip s` is not whitespace. -/
theorem head?_strip {s : List Char} {d : Char}
    (h : (strip s).head? = some d) : pyIsSpace d = false := by
  have h2 := head?_stripEnd h
  have := List.head?_dropWhile_not pyIsSpace s
  rw [h2] at this
  exact this

/-- The last character of `strip s` is not whitespace. -/
theorem getLast?_strip {s : List Char} {d : Char}
    (h : (strip s).getLast? = some d) : pyIsSpace d = false :=
  getLast?_stripEnd h

/-- A list whose last character is not whitespace is unchanged by
`stripEnd`. -/
theorem stripEnd_eq_self {s : List Char}
    (h : ∀ d, s.getLast? = some d → pyIsSpace d = false) : stripEnd s = s := by
  rw [stripEnd, dropWhile_eq_self_of_head, List.reverse_reverse]
  intro d hd
  rw [List.head?_reverse] at hd
  exact h d hd

/-- A list stripped on neither side is unchanged by `strip`. -/
theorem strip_eq_self {s : List Char}
    (hh : ∀ d, s.head? = some d → pyIsSpace d = false)
    (hl : ∀ d, s.getLast? = some d → pyIsSpace d = false) : strip s = s := by
  rw [strip, dropWhile_eq_self_of_head hh, stripEnd_eq_self hl]

/-- Stripping is idempotent. -/
theorem strip_idem (s : List Char) : strip (strip s) = strip s :=
  strip_eq_self (fun _ h => head?_strip h) (fun _ h => getLast?_strip h)

/-- Stripping preserves the absence of adjacent pairs. -/
theorem chain'_strip {R : Char → Char → Prop} {s : List Char}
    (h : List.Chain' R s) : List.Chain' R (strip s) := by
  have h1 : List.Chain' R (s.dropWhile pyIsSpace) :=
    h.suffix (List.dropWhile_suffix pyIsSpace)
  have h2 : List.Chain' (flip R) (s.dropWhile pyIsSpace).reverse :=
    List.chain'_reverse.mpr h1
  have h3 : List.Chain' (flip R)
      ((s.dropWhile pyIsSpace).reverse.dropWhile pyIsSpace) :=
    h2.suffix (List.dropWhile_suffix pyIsSpace)
  exact List.chain'_reverse.mpr h3

/-- Unfolding of `clean_text` on non-empty input. -/
theorem clean_text_eq {x : List Char} (hx : ¬ x = []) :
    clean_text x =
      strip ((collapseRuns pyIsSpace ' '
        (collapseRuns (fun c => c == '\n') '\n' x)).filter
          (fun c => pyIsPrintable c || c == '\n')) := by
  simp [clean_text, hx]

/-- The cleaned text never contains a newline: every whitespace
character, newlines included, has been collapsed to a space before the
character filter runs. -/
theorem clean_text_no_newline (x : List Char) : '\n' ∉ clean_text x := by
  by_cases hx : x = []
  · simp [hx, clean_text]
  · rw [clean_text_eq hx]
    intro hmem
    have h3 := List.mem_filter.mp (mem_strip hmem)
    rcases mem_collapseRunsAux h3.1 with h | h
    · exact absurd h (by decide)
    · exact absurd h.1 (by decide)

/-- Every whitespace character of the cleaned text is a plain space. -/
theorem mem_clean_text_space {x : List Char} :
    ∀ c ∈ clean_text x, pyIsSpace c = true → c = ' ' := by
  intro c hc hsp
  by_cases hx : x = []
  · rw [hx] at hc; simp [clean_text] at hc
  · rw [clean_text_eq hx] at hc
    have h3 := List.mem_filter.mp (mem_strip hc)
    rcases mem_collapseRunsAux h3.1 with h | h
    · exact h
    · rw [h.1] at hsp; exact absurd hsp (by simp)

/-- Every character of the cleaned text passes the printability filter. -/
theorem mem_clean_text_pred {x : List Char} :
    ∀ c ∈ clean_text x, (pyIsPrintable c || c == '\n') = true := by
  intro c hc
  by_cases hx : x = []
  · rw [hx] at hc; simp [clean_text] at hc
  · rw [clean_text_eq hx] at hc
    exact (List.mem_filter.mp (mem_strip hc)).2

/-- The first character of the cleaned text is not whitespace. -/
theorem clean_text_head {x : List Char} {d : Char}
    (h : (clean_text x).head? = some d) : pyIsSpace d = false := by
  by_cases hx : x = []
  · rw [hx] at h; simp [clean_text] at h
  · rw [clean_text_eq hx] at h; exact head?_strip h

/-- The last character of the cleaned text is not whitespace. -/
theorem clean_text_last {x : List Char} {d : Char}
    (h : (clean_text x).getLast? = some d) : pyIsSpace d = false := by
  by_cases hx : x = []
  · rw [hx] at h; simp [clean_text] at h
  · rw [clean_text_eq hx] at h; exact getLast?_strip h

/-- An input is tame when each of its characters is printable or
whitespace, i.e. it contains none of the characters that `_clean_text`
deletes after having collapsed whitespace. -/
abbrev tame (s : List Char) : Prop :=
  ∀ c ∈ s, pyIsPrintable c = true ∨ pyIsSpace c = true

/-- On tame input the printability filter of `_clean_text` removes
nothing. -/
theorem clean_text_filter_id {x : List Char} (ht : tame x) :
    (collapseRuns pyIsSpace ' '
        (collapseRuns (fun c => c == '\n') '\n' x)).filter
          (fun c => pyIsPrintable c || c == '\n') =
      collapseRuns pyIsSpace ' ' (collapseRuns (fun c => c == '\n') '\n' x) := by
  rw [List.filter_eq_self]
  intro c hc
  rcases mem_collapseRunsAux hc with h | h
  · rw [h]; decide
  · rcases mem_collapseRunsAux h.2 with h1 | h1
    · rw [h1] at h; exact absurd h.1 (by decide)
    · rcases ht c h1.2 with h2 | h2
      · simp [h2]
      · rw [h2] at h; exact absurd h.1 (by simp)

/-- On tame input the cleaned text has no two adjacent whitespace
characters. -/
theorem clean_text_chain' {x : List Char} (ht : tame x) :
    List.Chain' (fun a c => ¬(pyIsSpace a = true ∧ pyIsSpace c = true)) (clean_text x) := by
  by_cases hx : x = []
  · simp [hx, clean_text]
  · rw [clean_text_eq hx, clean_text_filter_id ht]
    exact chain'_strip (chain'_collapseRunsAux _ _)

/-- On tame input `_clean_text` is idempotent. -/
theorem clean_text_idem {x : List Char} (ht : tame x) :
    clean_text (clean_text x) = clean_text x := by
  by_cases hy : clean_text x = []
  · rw [hy]; rfl
  · rw [clean_text_eq hy]
    have h1 : collapseRuns (fun c => c == '\n') '\n' (clean_text x) = clean_text x := by
      apply collapseRunsAux_eq_self
      intro c hc
      simp only [beq_eq_false_iff_ne, ne_eq]
      intro heq
      exact clean_text_no_newline x (heq ▸ hc)
    rw [h1]
    have h2 : collapseRuns pyIsSpace ' ' (clean_text x) = clean_text x :=
      collapseRuns_eq_self (clean_text_chain' ht)
        (fun c hc hsp => mem_clean_text_space c hc hsp)
    rw [h2]
    have h3 : (clean_text x).filter (fun c => pyIsPrintable c || c == '\n') = clean_text x :=
      List.filter_eq_self.mpr (fun c hc => mem_clean_text_pred c hc)
    rw [h3]
    exact strip_eq_self (fun d hd => clean_text_head hd) (fun d hd => clean_text_last hd)

/-- Presence test of a key matches membership in the key list. -/
theorem any_key_iff (d : Findings) (k : String) :
    d.any (fun p => p.1 = k) = true ↔ k ∈ d.map Prod.fst := by
  rw [List.any_eq_true]
  constructor
  · rintro ⟨p, hp, he⟩
    exact List.mem_map.mpr ⟨p, hp, by simpa using he⟩
  · rintro h
    rcases List.mem_map.mp h with ⟨p, hp, he⟩
    exact ⟨p, hp, by simpa using he⟩

/-- Assigning to an existing key leaves the key list unchanged. -/
theorem dictSet_keys_of_mem {d : Findings} {k : String} (v : List (List Char))
    (h : k ∈ d.map Prod.fst) : (dictSet d k v).map Prod.fst = d.map Prod.fst := by
  rw [dictSet, if_pos ((any_key_iff d k).mpr h), List.map_map]
  apply List.map_congr_left
  intro p _
  by_cases hp : p.1 = k <;> simp [hp]

/-- The extraction loop leaves the key list of the findings dict
unchanged as long as every registry category is already a key. -/
theorem keys_extractGo :
    ∀ (reg : List (String × Pat)) (content : List Char) (f res : Findings),
      (∀ p ∈ reg, p.1 ∈ f.map Prod.fst) → extractGo reg content f = .ok res →
        res.map Prod.fst = f.map Prod.fst := by
  intro reg
  induction reg with
  | nil =>
    intro content f res _ h
    cases h
    rfl
  | cons e rest ih =>
    intro content f res hk h
    rcases e with ⟨cat, pat⟩
    cases pat with
    | none => exact absurd h (by simp [extractGo])
    | some m =>
      have hcat : cat ∈ f.map Prod.fst := hk (cat, some m) (List.mem_cons_self _ _)
      have hkeys := dictSet_keys_of_mem (d := f) (k := cat)
        (processMatches (m content)) hcat
      rw [extractGo] at h
      rw [ih content _ res (fun p hp => hkeys ▸ hk p (List.mem_cons_of_mem _ hp)) h]
      exact hkeys

/-- A registry containing a non-compiling pattern makes the extraction
loop raise `re.error`. -/
theorem extractGo_error_of_bad :
    ∀ (reg : List (String × Pat)) (content : List Char) (f : Findings),
      (∃ c, (c, (none : Pat)) ∈ reg) → extractGo reg content f = .error () := by
  intro reg
  induction reg with
  | nil => rintro content f ⟨c, hc⟩; simp at hc
  | cons e rest ih =>
    rintro content f ⟨c, hc⟩
    rcases e with ⟨cat, pat⟩
    cases pat with
    | none => rfl
    | some m =>
      rcases List.mem_cons.mp hc with h | h
      · simp at h
      · exact ih content _ ⟨c, h⟩

/-- A registry with an invalid pattern fails `extract_key_findings` on
every non-empty text. -/
theorem extract_error_of_bad {reg : List (String × Pat)} {content : List Char}
    (hbad : ∃ c, (c, (none : Pat)) ∈ reg) (hc : ¬ content = []) :
    extract_key_findings reg content = .error () := by
  rw [extract_key_findings, if_neg hc]
  exact extractGo_error_of_bad reg content initFindings hbad

/-- The match filter is exactly the discard of candidates shorter than 3
characters after trimming. -/
theorem processMatch_eq (g : List Char) :
    processMatch g =
      if (strip g).length < 3 then none
      else some (strip (collapseRuns pyIsSpace ' ' (strip g))) := by
  rw [processMatch]
  by_cases h : (strip g).length < 3
  · rw [if_pos h, if_neg]
    intro hcon
    rcases hcon with ⟨h1, h2⟩
    have : (strip g).length ≠ 0 := by
      intro h0
      exact h1 (List.length_eq_zero.mp h0)
    omega
  · rw [if_neg h, if_pos]
    constructor
    · intro h0
      rw [h0] at h
      simp at h
    · omega

/-- A surviving candidate is trimmed and has no two adjacent whitespace
characters. -/
theorem processMatch_shape {g x : List Char} (h : processMatch g = some x) :
    strip x = x ∧
      List.Chain' (fun a c => ¬(pyIsSpace a = true ∧ pyIsSpace c = true)) x := by
  rw [processMatch] at h
  by_cases hc : strip g ≠ [] ∧ 2 < (strip g).length
  · rw [if_pos hc, Option.some.injEq] at h
    subst h
    exact ⟨strip_idem _, chain'_strip (chain'_collapseRunsAux _ _)⟩
  · rw [if_neg hc] at h
    cases h

/-- Exhaustive case analysis of `process_file`: either it succeeds and
appends exactly one record, or it fails (warning or caught exception)
and returns the state untouched. -/
theorem process_file_cases (ex : Extractors) (st : AnalyzerState) (f : RawFile) :
    ((process_file ex st f).1 = .success ∧
        ∃ rep, (process_file ex st f).2 = { st with reports := st.reports ++ [rep] }) ∨
      ((process_file ex st f).1 ≠ .success ∧ (process_file ex st f).2 = st) := by
  simp only [process_file]
  split
  · exact Or.inr ⟨by simp, rfl⟩
  · exact Or.inr ⟨by simp, rfl⟩
  · split
    · exact Or.inr ⟨by simp, rfl⟩
    · split
      · exact Or.inr ⟨by simp, rfl⟩
      · exact Or.inl ⟨rfl, ⟨_, rfl⟩⟩

/-- `process_file` never touches the pattern registry. -/
theorem process_file_patterns (ex : Extractors) (st : AnalyzerState) (f : RawFile) :
    ((process_file ex st f).2).findings_patterns = st.findings_patterns := by
  rcases process_file_cases ex st f with ⟨_, rep, h⟩ | ⟨_, h⟩ <;> rw [h]

/-- The batch loop never touches the pattern registry. -/
theorem processBatch_patterns (ex : Extractors) (fs : List RawFile) (st : AnalyzerState) :
    (processBatch ex fs st).findings_patterns = st.findings_patterns := by
  induction fs generalizing st with
  | nil => rfl
  | cons g gs ih =>
    rw [processBatch, List.foldl_cons]
    rw [show List.foldl (fun s f => (process_file ex s f).2) ((process_file ex st g).2) gs =
      processBatch ex gs ((process_file ex st g).2) from rfl]
    rw [ih]
    exact process_file_patterns ex st g

/-- A file whose processing is a no-op on every state with the current
registry can be dropped from a batch without changing the final
state. -/
theorem processBatch_skip (ex : Extractors) (fs1 fs2 : List RawFile)
    (st : AnalyzerState) (f : RawFile)
    (h : ∀ s : AnalyzerState, s.findings_patterns = st.findings_patterns →
      (process_file ex s f).2 = s) :
    processBatch ex (fs1 ++ f :: fs2) st = processBatch ex (fs1 ++ fs2) st := by
  rw [processBatch, processBatch, List.foldl_append, List.foldl_append, List.foldl_cons]
  rw [h (List.foldl (fun s f => (process_file ex s f).2) st fs1)
    (processBatch_patterns ex fs1 st)]

/-- A file with an unrecognized extension is rejected with a warning
before any extractor is consulted, leaving the state unchanged. -/
theorem process_file_unsupported (ex : Extractors) (st : AnalyzerState) (f : RawFile)
    (h : strToLower (pathSuffix f.name) ∉
      ([".pdf".data, ".txt".data, ".doc".data, ".docx".data] : List (List Char))) :
    process_file ex st f = (.unsupported, st) := by
  simp only [List.mem_cons, not_or] at h
  have hd : dispatchExtract ex (strToLower (pathSuffix f.name)) f.bytes = none := by
    simp only [dispatchExtract]
    rw [if_neg h.1, if_neg h.2.1, if_neg (by simp [h.2.2.1, h.2.2.2.1])]
  simp [process_file, hd]

/-- A registry containing an invalid pattern makes `process_file` fail
with the caught `re.error` on any supported file with non-empty cleaned
content, leaving the state unchanged. -/
theorem process_file_invalid (ex : Extractors) (st : AnalyzerState) (f : RawFile)
    (raw : List Char)
    (hraw : dispatchExtract ex (strToLower (pathSuffix f.name)) f.bytes = some (.ok raw))
    (hcl : ¬ clean_text raw = [])
    (hbad : ∃ c, (c, (none : Pat)) ∈ st.findings_patterns) :
    process_file ex st f = (.caught .invalidPattern, st) := by
  have hext := extract_error_of_bad hbad hcl
  simp [process_file, hraw, hext]

/-- Projection of a record to the fields that do not mention the file
name or extension tag. -/
def reportCore (r : Report) : List Char × Findings × Metadata :=
  (r.content, r.key_findings, r.metadata)

/-- Routing of `.doc` names to the python-docx extractor. -/
theorem dispatchExtract_doc (ex : Extractors) (b : Bytes) :
    dispatchExtract ex ".doc".data b = some (ex.docx b) := by
  simp only [dispatchExtract]
  rw [if_neg (by decide), if_neg (by decide), if_pos (by decide)]

/-- Routing of `.docx` names to the python-docx extractor. -/
theorem dispatchExtract_docx (ex : Extractors) (b : Bytes) :
    dispatchExtract ex ".docx".data b = some (ex.docx b) := by
  simp only [dispatchExtract]
  rw [if_neg (by decide), if_neg (by decide), if_pos (by decide)]

/-- Files with `.doc` and `.docx` suffixes and identical bytes are
processed identically: same outcome, and record histories that agree on
content, findings and metadata (only the stored name and extension tag
differ). -/
theorem process_file_doc_docx (ex : Extractors) (st : AnalyzerState)
    (f1 f2 : RawFile)
    (h1 : strToLower (pathSuffix f1.name) = ".doc".data)
    (h2 : strToLower (pathSuffix f2.name) = ".docx".data)
    (hb : f1.bytes = f2.bytes) :
    (process_file ex st f1).1 = (process_file ex st f2).1 ∧
      (process_file ex st f1).2.reports.map reportCore =
        (process_file ex st f2).2.reports.map reportCore := by
  have hd1 : dispatchExtract ex (strToLower (pathSuffix f1.name)) f1.bytes =
      some (ex.docx f2.bytes) := by
    rw [h1, hb]; exact dispatchExtract_doc ex f2.bytes
  have hd2 : dispatchExtract ex (strToLower (pathSuffix f2.name)) f2.bytes =
      some (ex.docx f2.bytes) := by
    rw [h2]; exact dispatchExtract_docx ex f2.bytes
  simp only [process_file, hd1, hd2]
  cases hdoc : ex.docx f2.bytes with
  | error e => simp
  | ok raw =>
    cases hext : extract_key_findings st.findings_patterns (clean_text raw) with
    | error e => simp [hext]
    | ok kf =>
      cases hsc : (if clean_text raw = [] then Except.ok 0 else ex.sentCount (clean_text raw)) with
      | error e => simp [hext, hsc]
      | ok sc => simp [hext, hsc, mkReport, reportCore]

/-- Code points determine characters. -/
theorem char_toNat_inj {a b : Char} (h : a.toNat = b.toNat) : a = b := by
  rw [← Char.ofNat_toNat a, ← Char.ofNat_toNat b, h]

/-- The Python string order is total. -/
theorem lexLe_total : ∀ a b : List Char, (lexLe a b || lexLe b a) = true := by
  intro a
  induction a with
  | nil => intro b; simp [lexLe]
  | cons x xs ih =>
    intro b
    cases b with
    | nil => simp [lexLe]
    | cons y ys =>
      by_cases hxy : x = y
      · subst hxy
        simpa [lexLe] using ih ys
      · have hne : x.toNat ≠ y.toNat := fun h => hxy (char_toNat_inj h)
        simp only [lexLe, if_neg hxy, if_neg (Ne.symm hxy), Bool.or_eq_true,
          decide_eq_true_eq]
        omega

/-- The Python string order is transitive. -/
theorem lexLe_trans :
    ∀ a b c : List Char, lexLe a b = true → lexLe b c = true → lexLe a c = true := by
  intro a
  induction a with
  | nil => intro b c _ _; rfl
  | cons x xs ih =>
    intro b c hab hbc
    cases b with
    | nil => simp [lexLe] at hab
    | cons y ys =>
      cases c with
      | nil => simp [lexLe] at hbc
      | cons z zs =>
        by_cases hxy : x = y
        · subst hxy
          rw [lexLe, if_pos rfl] at hab
          by_cases hyz : x = z
          · subst hyz
            rw [lexLe, if_pos rfl] at hbc ⊢
            exact ih ys zs hab hbc
          · rw [lexLe, if_neg hyz] at hbc ⊢
            exact hbc
        · rw [lexLe, if_neg hxy] at hab
          by_cases hyz : y = z
          · subst hyz
            rw [lexLe, if_neg hxy]
            exact hab
          · rw [lexLe, if_neg hyz] at hbc
            have h1 : x.toNat < y.toNat := by simpa using hab
            have h2 : y.toNat < z.toNat := by simpa using hbc
            have hxz : ¬ x = z := by
              intro h
              subst h
              omega
            rw [lexLe, if_neg hxz]
            simp
            omega

/-- Membership in a Python set after an `update`. -/
theorem mem_setUpdate {x : List Char} :
    ∀ (items s : List (List Char)), x ∈ setUpdate s items ↔ x ∈ s ∨ x ∈ items := by
  intro items
  induction items with
  | nil => intro s; simp [setUpdate]
  | cons i is ih =>
    intro s
    rw [show setUpdate s (i :: is) =
      setUpdate (if i ∈ s then s else s ++ [i]) is from rfl]
    rw [ih]
    by_cases hi : i ∈ s
    · rw [if_pos hi]
      constructor
      · rintro (h | h)
        · exact Or.inl h
        · exact Or.inr (List.mem_cons_of_mem _ h)
      · rintro (h | h)
        · exact Or.inl h
        · rcases List.mem_cons.mp h with h1 | h1
          · exact Or.inl (h1 ▸ hi)
          · exact Or.inr h1
    · rw [if_neg hi]
      simp only [List.mem_append, List.mem_cons, List.mem_singleton]
      tauto

/-- A Python set stays duplicate-free under `update`. -/
theorem nodup_setUpdate :
    ∀ (items s : List (List Char)), s.Nodup → (setUpdate s items).Nodup := by
  intro items
  induction items with
  | nil => intro s h; exact h
  | cons i is ih =>
    intro s h
    rw [show setUpdate s (i :: is) =
      setUpdate (if i ∈ s then s else s ++ [i]) is from rfl]
    apply ih
    by_cases hi : i ∈ s
    · rwa [if_pos hi]
    · rw [if_neg hi]
      rw [List.nodup_append]
      exact ⟨h, by simpa using hi⟩

/-- Searching a key-preserving transform of an association list. -/
theorem find?_map_keyPres {β : Type} (d : List (String × β)) (k : String)
    (f : String × β → String × β) (hf : ∀ p, (f p).1 = p.1) :
    (d.map f).find? (fun p => p.1 = k) = (d.find? (fun p => p.1 = k)).map f := by
  induction d with
  | nil => rfl
  | cons p ps ih =>
    by_cases hp : p.1 = k
    · rw [List.map_cons, List.find?_cons_of_pos _ (by simp [hf, hp]),
        List.find?_cons_of_pos _ (by simp [hp]), Option.map_some']
    · rw [List.map_cons, List.find?_cons_of_neg _ (by simp [hf, hp]),
        List.find?_cons_of_neg _ (by simp [hp]), ih]

/-- A missing key reads as the empty list. -/
theorem findGet_eq_nil {d : List (String × List (List Char))} {k : String}
    (h : k ∉ d.map Prod.fst) : findGet d k = [] := by
  rw [findGet, List.find?_eq_none.mpr]
  · rfl
  · intro p hp
    simp only [decide_eq_true_eq]
    intro he
    exact h (List.mem_map.mpr ⟨p, hp, he⟩)

/-- Reading the head key of an association list. -/
theorem findGet_cons_self {k : String} {v : List (List Char)}
    {d : List (String × List (List Char))} : findGet ((k, v) :: d) k = v := by
  rw [findGet, List.find?_cons_of_pos _ (by simp)]
  rfl

/-- Reading past the head key of an association list. -/
theorem findGet_cons_ne {k c : String} {v : List (List Char)}
    {d : List (String × List (List Char))} (h : ¬ c = k) :
    findGet ((c, v) :: d) k = findGet d k := by
  rw [findGet, List.find?_cons_of_neg _ (by simp [h])]
  rfl

/-- The in-place category update of the aggregation loop preserves the
key list. -/
theorem updCat_keys (acc : List (String × List (List Char))) (cat : String)
    (items : List (List Char)) :
    (acc.map (fun p => if p.1 = cat then (p.1, setUpdate p.2 items) else p)).map Prod.fst =
      acc.map Prod.fst := by
  rw [List.map_map]
  apply List.map_congr_left
  intro p _
  by_cases hp : p.1 = cat <;> simp [hp]

/-- Reading the updated category after the in-place update. -/
theorem updCat_get_self {acc : List (String × List (List Char))} {cat : String}
    (items : List (List Char)) (h : cat ∈ acc.map Prod.fst) :
    findGet (acc.map (fun p => if p.1 = cat then (p.1, setUpdate p.2 items) else p)) cat =
      setUpdate (findGet acc cat) items := by
  rw [findGet, find?_map_keyPres _ _ _ (fun p => by by_cases hp : p.1 = cat <;> simp [hp])]
  cases hf : acc.find? (fun p => p.1 = cat) with
  | none =>
    rcases List.mem_map.mp h with ⟨p, hp, he⟩
    have := List.find?_eq_none.mp hf p hp
    simp [he] at this
  | some p =>
    have hp : p.1 = cat := by simpa using List.find?_some hf
    rw [findGet, hf]
    simp [hp]

/-- Reading any other category after the in-place update. -/
theorem updCat_get_ne {acc : List (String × List (List Char))} {cat k : String}
    (items : List (List Char)) (h : ¬ k = cat) :
    findGet (acc.map (fun p => if p.1 = cat then (p.1, setUpdate p.2 items) else p)) k =
      findGet acc k := by
  rw [findGet, find?_map_keyPres _ _ _ (fun p => by by_cases hp : p.1 = cat <;> simp [hp])]
  cases hf : acc.find? (fun p => p.1 = k) with
  | none => rw [findGet, hf]; rfl
  | some p =>
    have hp : p.1 = k := by simpa using List.find?_some hf
    rw [findGet, hf]
    have hpc : ¬ p.1 = cat := by rw [hp]; exact h
    simp [hpc]

/-- Splitting an existential over the head of a list. -/
theorem exists_mem_cons_split {α : Type} {a : α} {l : List α} {q : α → Prop} :
    (∃ x ∈ a :: l, q x) ↔ q a ∨ ∃ x ∈ l, q x := by
  constructor
  · rintro ⟨x, hx, hq⟩
    rcases List.mem_cons.mp hx with h | h
    · exact Or.inl (h ▸ hq)
    · exact Or.inr ⟨x, h, hq⟩
  · rintro (h | ⟨x, hx, hq⟩)
    · exact ⟨a, List.mem_cons_self _ _, h⟩
    · exact ⟨x, List.mem_cons_of_mem _ hx, hq⟩

/-- Effect of the inner aggregation loop: when every category of the
report is a key of the summary dict and the report's keys are distinct,
the loop succeeds, preserves the key list and updates each category's
set with the report's items. -/
theorem updFold_spec :
    ∀ (kf : Findings) (acc : List (String × List (List Char))),
      (∀ p ∈ kf, p.1 ∈ acc.map Prod.fst) → (kf.map Prod.fst).Nodup →
      ∃ acc2, updFold acc kf = .ok acc2 ∧ acc2.map Prod.fst = acc.map Prod.fst ∧
        ∀ k, findGet acc2 k =
          if k ∈ kf.map Prod.fst then setUpdate (findGet acc k) (findGet kf k)
          else findGet acc k := by
  intro kf
  induction kf with
  | nil =>
    intro acc _ _
    exact ⟨acc, rfl, rfl, fun k => by simp⟩
  | cons e rest ih =>
    intro acc hmem hnd
    rcases e with ⟨cat, items⟩
    have hcat : cat ∈ acc.map Prod.fst := hmem (cat, items) (List.mem_cons_self _ _)
    have hany : acc.any (fun p => p.1 = cat) = true := (any_key_iff acc cat).mpr hcat
    have hk1 := updCat_keys acc cat items
    rw [List.map_cons] at hnd
    have hnd2 := List.nodup_cons.mp hnd
    obtain ⟨acc2, h1, h2, h3⟩ :=
      ih (acc.map (fun p => if p.1 = cat then (p.1, setUpdate p.2 items) else p))
        (fun p hp => hk1 ▸ hmem p (List.mem_cons_of_mem _ hp)) hnd2.2
    refine ⟨acc2, ?_, by rw [h2, hk1], ?_⟩
    · rw [show updFold acc ((cat, items) :: rest) =
        if acc.any (fun p => p.1 = cat) then
          updFold (acc.map (fun p => if p.1 = cat then (p.1, setUpdate p.2 items) else p)) rest
        else .error () from rfl]
      rw [if_pos hany]
      exact h1
    · intro k
      by_cases hk : k = cat
      · subst hk
        rw [h3 k, if_neg hnd2.1, updCat_get_self items hcat]
        rw [if_pos (by simp), findGet_cons_self]
      · rw [h3 k, updCat_get_ne items hk,
          findGet_cons_ne (show ¬ cat = k from fun h => hk h.symm)]
        by_cases hk2 : k ∈ rest.map Prod.fst
        · rw [if_pos hk2, if_pos (by simp [hk2])]
        · rw [if_neg hk2, if_neg (by simp [hk, hk2])]

/-- Effect of the outer aggregation loop: with well-keyed reports it
succeeds, keeps the five category keys and accumulates exactly the set
union of the per-report findings of each category. -/
theorem collectFindings_spec :
    ∀ (reports : List Report) (acc : List (String × List (List Char))),
      (∀ r ∈ reports, r.key_findings.map Prod.fst = categoryNames) →
      acc.map Prod.fst = categoryNames →
      ∃ res, collectFindings acc reports = .ok res ∧ res.map Prod.fst = categoryNames ∧
        ∀ k, (∀ x, x ∈ findGet res k ↔
            x ∈ findGet acc k ∨ ∃ r ∈ reports, x ∈ findGet r.key_findings k) ∧
          ((findGet acc k).Nodup → (findGet res k).Nodup) := by
  intro reports
  induction reports with
  | nil =>
    intro acc _ hkeys
    exact ⟨acc, rfl, hkeys, fun k => ⟨fun x => by simp, id⟩⟩
  | cons r rs ih =>
    intro acc hr hkeys
    have hrk : r.key_findings.map Prod.fst = categoryNames :=
      hr r (List.mem_cons_self _ _)
    have hmem : ∀ p ∈ r.key_findings, p.1 ∈ acc.map Prod.fst := by
      intro p hp
      rw [hkeys, ← hrk]
      exact List.mem_map_of_mem _ hp
    have hnd : (r.key_findings.map Prod.fst).Nodup := by
      rw [hrk]
      decide
    obtain ⟨acc2, h1, h2, h3⟩ := updFold_spec r.key_findings acc hmem hnd
    obtain ⟨res, g1, g2, g3⟩ :=
      ih acc2 (fun q hq => hr q (List.mem_cons_of_mem _ hq)) (h2.trans hkeys)
    refine ⟨res, ?_, g2, ?_⟩
    · rw [show collectFindings acc (r :: rs) =
        (match updFold acc r.key_findings with
          | .error e => .error e
          | .ok acc3 => collectFindings acc3 rs) from rfl]
      rw [h1]
      exact g1
    · intro k
      constructor
      · intro x
        rw [(g3 k).1 x, h3 k, exists_mem_cons_split]
        by_cases hk : k ∈ r.key_findings.map Prod.fst
        · rw [if_pos hk, mem_setUpdate]
          tauto
        · rw [if_neg hk, findGet_eq_nil hk]
          simp
      · intro hn
        apply (g3 k).2
        rw [h3 k]
        by_cases hk : k ∈ r.key_findings.map Prod.fst
        · rw [if_pos hk]
          exact nodup_setUpdate _ _ hn
        · rwa [if_neg hk]

/-- Every category set of the initial summary dict is empty. -/
theorem initFindingSets_get (k : String) : findGet initFindingSets k = [] := by
  rw [findGet]
  cases hf : initFindingSets.find? (fun p => p.1 = k) with
  | none => rfl
  | some p =>
    have hp := List.mem_of_find?_eq_some hf
    simp only [initFindingSets, List.mem_cons, List.not_mem_nil, or_false] at hp
    rcases hp with h | h | h | h | h <;> simp [h]

/-- The trailing empty-list rewrite in `generate_summary` is the
identity. -/
theorem ifnil_id (v : List (List Char)) : (if v = [] then [] else v) = v := by
  by_cases h : v = [] <;> simp [h]

/-- Characterization of the summary findings: `buildSummary` succeeds on
well-keyed reports and each category holds a sorted duplicate-free list
whose members are exactly the findings of that category across all
reports. -/
theorem buildSummary_findings (reports : List Report)
    (hkeys : ∀ r ∈ reports, r.key_findings.map Prod.fst = categoryNames) :
    ∃ s, buildSummary reports = .ok s ∧
      s.key_findings.map Prod.fst = categoryNames ∧
      s.total_reports = reports.length ∧
      s.avg_sentences_per_report =
        ((reports.map (fun r => (r.metadata.sentence_count : ℚ))).sum) /
          (reports.length : ℚ) ∧
      ∀ k, List.Pairwise (fun a b => lexLe a b = true) (findGet s.key_findings k) ∧
        (findGet s.key_findings k).Nodup ∧
        (∀ x, x ∈ findGet s.key_findings k ↔
          ∃ r ∈ reports, x ∈ findGet r.key_findings k) := by
  obtain ⟨res, h1, h2, h3⟩ := collectFindings_spec reports initFindingSets hkeys rfl
  have hb : buildSummary reports = .ok
      { total_reports := reports.length
        report_types := count_report_types reports
        key_findings :=
          res.map (fun p =>
            (p.1, let v := List.mergeSort p.2 lexLe; if v = [] then [] else v))
        total_word_count := (reports.map (fun r => r.metadata.word_count)).sum
        avg_sentences_per_report :=
          ((reports.map (fun r => (r.metadata.sentence_count : ℚ))).sum) /
            (reports.length : ℚ) } := by
    simp only [buildSummary, h1]
  refine ⟨_, hb, ?_, rfl, rfl, ?_⟩
  · rw [List.map_map]
    rw [show (Prod.fst ∘ fun p : String × List (List Char) =>
      (p.1, let v := List.mergeSort p.2 lexLe; if v = [] then [] else v)) = Prod.fst from rfl]
    exact h2
  · intro k
    have hmap : findGet (res.map (fun p : String × List (List Char) =>
        (p.1, let v := List.mergeSort p.2 lexLe; if v = [] then [] else v))) k =
        (if (List.mergeSort (findGet res k) lexLe) = [] then []
          else List.mergeSort (findGet res k) lexLe) := by
      rw [findGet, find?_map_keyPres res k
        (fun p => (p.1, let v := List.mergeSort p.2 lexLe; if v = [] then [] else v))
        (fun p => rfl)]
      cases hf : res.find? (fun p => p.1 = k) with
      | none =>
        rw [findGet, hf]
        simp
      | some p =>
        rw [findGet, hf]
        rfl
    rw [hmap, ifnil_id]
    have hresnd : (findGet res k).Nodup := (h3 k).2 (by rw [initFindingSets_get]; exact List.nodup_nil)
    refine ⟨List.sorted_mergeSort lexLe_trans lexLe_total (findGet res k), ?_, ?_⟩
    · exact (List.mergeSort_perm (findGet res k) lexLe).symm.nodup hresnd
    · intro x
      rw [(List.mergeSort_perm (findGet res k) lexLe).mem_iff, (h3 k).1 x,
        initFindingSets_get]
      simp

/-- The scenario input of the C1 test case. -/
def c1Input : List Char := "Diagnosis: Hypertension\nMedication: Lisinopril 10mg\n".data

/-- Claim C1, evaluated on the code: running the pipeline
(`_clean_text` followed by `extract_key_findings` with the default
registry) on `"Diagnosis: Hypertension\nMedication: Lisinopril 10mg\n"`
does NOT give diagnoses = `["Hypertension"]`.  `_clean_text` first
replaces the newline by a space, so the lazy group of the diagnoses
pattern, which can only stop at a newline or at the end of the text,
captures everything up to the end: diagnoses =
`["Hypertension Medication: Lisinopril 10mg"]` while medications =
`["Lisinopril 10mg"]` as the claim states. -/
theorem C1_pipeline_eval :
    clean_text c1Input = "Diagnosis: Hypertension Medication: Lisinopril 10mg".data ∧
    extract_key_findings defaultPatterns (clean_text c1Input) =
      .ok [("diagnoses", ["Hypertension Medication: Lisinopril 10mg".data]),
           ("medications", ["Lisinopril 10mg".data]),
           ("vitals", []), ("lab_results", []), ("recommendations", [])] ∧
    (["Hypertension Medication: Lisinopril 10mg".data] : List (List Char)) ≠
      ["Hypertension".data] :=
  ⟨rfl, rfl, by decide⟩

/-- An input containing a control character (U+0000) between two
spaces: `_clean_text` collapses nothing (the runs are single spaces),
then deletes the control character, leaving two adjacent spaces. -/
def rawCtrlInput : List Char := ['a', ' ', Char.ofNat 0, ' ', 'b']

/-- Claim C4, counterexample: normalization is not idempotent.
`_clean_text "a \x00 b" = "a  b"` (the non-printable character is
removed after whitespace collapsing, creating a double space) while a
second application gives `"a b"`. -/
theorem C4_idem_counterexample :
    clean_text (clean_text rawCtrlInput) ≠ clean_text rawCtrlInput := by decide

/-- Claim C4 (amended): normalization is idempotent on every input
whose characters are all printable or whitespace, i.e. inputs free of
the non-printable characters that `_clean_text` deletes after having
collapsed whitespace runs. -/
theorem C4_idem_amended {x : List Char} (ht : tame x) :
    clean_text (clean_text x) = clean_text x :=
  clean_text_idem ht

/-- Witness for C4: the amended idempotence applied to a concrete tame
input. -/
theorem C4_idem_amended_witness :
    tame "  Diagnosis:  flu \n".data ∧
      clean_text (clean_text "  Diagnosis:  flu \n".data) =
        clean_text "  Diagnosis:  flu \n".data :=
  ⟨by decide, C4_idem_amended (by decide)⟩

/-- Claim C5, counterexample: the output of normalization can contain
two consecutive space characters, on the same input as the C4
counterexample. -/
theorem C5_counterexample :
    ¬ List.Chain' (fun a b => ¬(a = ' ' ∧ b = ' ')) (clean_text rawCtrlInput) := by
  intro h
  rw [show clean_text rawCtrlInput = ['a', ' ', ' ', 'b'] from rfl] at h
  rw [List.chain'_cons, List.chain'_cons] at h
  exact h.2.1 ⟨rfl, rfl⟩

/-- Claim C5 (amended): for every input the normalized text contains no
newline and is trimmed of leading and trailing whitespace; the absence
of two consecutive whitespace characters additionally holds whenever
the input contains no non-printable non-whitespace character. -/
theorem C5_flattened_amended (x : List Char) :
    '\n' ∉ clean_text x ∧
    (∀ d, (clean_text x).head? = some d → pyIsSpace d = false) ∧
    (∀ d, (clean_text x).getLast? = some d → pyIsSpace d = false) ∧
    (tame x →
      List.Chain' (fun a b => ¬(pyIsSpace a = true ∧ pyIsSpace b = true)) (clean_text x)) :=
  ⟨clean_text_no_newline x, fun _ h => clean_text_head h, fun _ h => clean_text_last h,
    fun ht => clean_text_chain' ht⟩

/-- Witness for C5: the amended statement applied to a concrete input,
with the tameness hypothesis of the last part discharged. -/
theorem C5_flattened_amended_witness :
    '\n' ∉ clean_text "a\n b ".data ∧
      List.Chain' (fun a b => ¬(pyIsSpace a = true ∧ pyIsSpace b = true))
        (clean_text "a\n b ".data) :=
  ⟨(C5_flattened_amended "a\n b ".data).1,
    (C5_flattened_amended "a\n b ".data).2.2.2 (by decide)⟩

/-- Claim C2: for every text and every pattern registry (keyed, as the
data model specifies, by the five fixed category names), whenever
`extract_key_findings` returns its dict has exactly the five category
keys, in order; in particular an empty registry or empty text gives the
initial dict with all five categories empty. -/
theorem C2_fixed_categories (reg : List (String × Pat)) (content : List Char)
    (hreg : ∀ p ∈ reg, p.1 ∈ categoryNames) :
    (∀ res, extract_key_findings reg content = .ok res →
      res.map Prod.fst = categoryNames) ∧
    (reg = [] → extract_key_findings reg content = .ok initFindings) ∧
    (content = [] → extract_key_findings reg content = .ok initFindings) := by
  refine ⟨?_, ?_, ?_⟩
  · intro res h
    by_cases hc : content = []
    · rw [extract_key_findings, if_pos hc] at h
      cases h
      rfl
    · rw [extract_key_findings, if_neg hc] at h
      rw [keys_extractGo reg content initFindings res (fun p hp => hreg p hp) h]
      rfl
  · intro h
    subst h
    by_cases hc : content = []
    · rw [extract_key_findings, if_pos hc]
    · rw [extract_key_findings, if_neg hc]
      rfl
  · intro h
    rw [extract_key_findings, if_pos h]

/-- Witness for C2: the registry-typing hypothesis discharged at the
empty registry on non-empty text. -/
theorem C2_fixed_categories_witness :
    (∀ res, extract_key_findings [] "abc".data = .ok res →
      res.map Prod.fst = categoryNames) ∧
    (([] : List (String × Pat)) = [] → extract_key_findings [] "abc".data = .ok initFindings) ∧
    ("abc".data = [] → extract_key_findings [] "abc".data = .ok initFindings) :=
  C2_fixed_categories [] "abc".data (by simp)

/-- Claim C6: for every compiling pattern (represented by its capture
function) and every non-empty text, the category's result is exactly
the scan-ordered capture list filtered by discarding candidates whose
trim is shorter than 3 characters, the survivors having their
whitespace runs collapsed and being trimmed; duplicates are kept, and
every survivor is trimmed with no two adjacent whitespace
characters. -/
theorem C6_match_processing (m : Matcher) (content : List Char) (cat : String)
    (hcat : cat ∈ categoryNames) (hc : ¬ content = []) :
    ∃ res, extract_key_findings [(cat, some m)] content = .ok res ∧
      findGet res cat = (m content).filterMap (fun g =>
        if (strip g).length < 3 then none
        else some (strip (collapseRuns pyIsSpace ' ' (strip g)))) ∧
      ∀ x ∈ findGet res cat, strip x = x ∧
        List.Chain' (fun a b => ¬(pyIsSpace a = true ∧ pyIsSpace b = true)) x := by
  have hget : findGet (dictSet initFindings cat (processMatches (m content))) cat =
      processMatches (m content) := by
    fin_cases hcat <;> rfl
  refine ⟨dictSet initFindings cat (processMatches (m content)), ?_, ?_, ?_⟩
  · rw [extract_key_findings, if_neg hc]
    rfl
  · rw [hget, processMatches, show processMatch = (fun g =>
      if (strip g).length < 3 then none
      else some (strip (collapseRuns pyIsSpace ' ' (strip g)))) from funext processMatch_eq]
  · intro x hx
    rw [hget] at hx
    rcases List.mem_filterMap.mp hx with ⟨g, _, hg⟩
    exact processMatch_shape hg

/-- Witness for C6 at the default diagnoses pattern on a two-line text:
the capture repeats and both occurrences are kept. -/
theorem C6_match_processing_witness :
    (∃ res, extract_key_findings [("diagnoses", some (findIter diagAlts))]
        "diagnosis: flu\ndiagnosis: flu".data = .ok res ∧
      findGet res "diagnoses" =
        (findIter diagAlts "diagnosis: flu\ndiagnosis: flu".data).filterMap (fun g =>
          if (strip g).length < 3 then none
          else some (strip (collapseRuns pyIsSpace ' ' (strip g)))) ∧
      ∀ x ∈ findGet res "diagnoses", strip x = x ∧
        List.Chain' (fun a b => ¬(pyIsSpace a = true ∧ pyIsSpace b = true)) x) ∧
    (extract_key_findings [("diagnoses", some (findIter diagAlts))]
        "diagnosis: flu\ndiagnosis: flu".data).toOption.map
      (fun res => findGet res "diagnoses") = some ["flu".data, "flu".data] :=
  ⟨C6_match_processing (findIter diagAlts) "diagnosis: flu\ndiagnosis: flu".data
      "diagnoses" (by decide) (by decide), by rfl⟩

/-- Concrete external collaborators used by the witnesses: the txt
extractor decodes each byte as a code point, the others return fixed
values and never fail. -/
def exW : Extractors :=
  { pdf := fun _ => .ok []
    txt := fun b => .ok (b.map Char.ofNat)
    docx := fun _ => .ok []
    sentCount := fun _ => .ok 1 }

/-- A concrete supported text file. -/
def fTxt : RawFile := { name := "a.txt".data, bytes := "hello".data.map Char.toNat }

/-- A concrete file with an unsupported extension. -/
def fXls : RawFile := { name := "report.xls".data, bytes := [] }

/-- A concrete `.doc` file. -/
def fDoc : RawFile := { name := "b.doc".data, bytes := [1, 2] }

/-- The same bytes under a `.docx` name. -/
def fDocx : RawFile := { name := "b.docx".data, bytes := [1, 2] }

/-- A fresh analyzer state with an empty registry. -/
def stEmpty : AnalyzerState := { reports := [], summary := none, findings_patterns := [] }

/-- An analyzer state whose diagnoses pattern does not compile. -/
def stBad : AnalyzerState :=
  { reports := [], summary := none, findings_patterns := [("diagnoses", none)] }

/-- Claim C7: with a registry containing an invalid pattern, processing
a supported file with non-empty cleaned content fails with the caught
`re.error`, creates no record, and dropping the file from a batch does
not change the batch's final state (the failure does not abort or
alter the processing of sibling files). -/
theorem C7_invalid_pattern (ex : Extractors) (st : AnalyzerState) (f : RawFile)
    (raw : List Char) (fs1 fs2 : List RawFile)
    (hraw : dispatchExtract ex (strToLower (pathSuffix f.name)) f.bytes = some (.ok raw))
    (hcl : ¬ clean_text raw = [])
    (hbad : ∃ c, (c, (none : Pat)) ∈ st.findings_patterns) :
    process_file ex st f = (.caught .invalidPattern, st) ∧
      processBatch ex (fs1 ++ f :: fs2) st = processBatch ex (fs1 ++ fs2) st := by
  refine ⟨process_file_invalid ex st f raw hraw hcl hbad, ?_⟩
  apply processBatch_skip
  intro s hs
  rw [process_file_invalid ex s f raw hraw hcl (by rw [hs]; exact hbad)]

/-- Witness for C7: a text file processed under a registry whose
diagnoses pattern is invalid. -/
theorem C7_invalid_pattern_witness :
    process_file exW stBad fTxt = (ProcResult.caught PyError.invalidPattern, stBad) ∧
      processBatch exW ([] ++ fTxt :: [fXls]) stBad = processBatch exW ([] ++ [fXls]) stBad :=
  C7_invalid_pattern exW stBad fTxt "hello".data [] [fXls] rfl (by decide)
    ⟨"diagnoses", by simp [stBad]⟩

/-- Claim C8: a file whose lower-cased suffix is not one of `.pdf`,
`.txt`, `.doc`, `.docx` is rejected with the unsupported-format warning
before any extractor runs (the outcome is the same for every set of
extractors), no record is created, dropping the file from a batch does
not change the batch's final state, and `.doc` and `.docx` files with
the same bytes are processed identically up to the stored name and
extension tag. -/
theorem C8_unsupported_format (ex : Extractors) (st : AnalyzerState) (f : RawFile)
    (fs1 fs2 : List RawFile)
    (h : strToLower (pathSuffix f.name) ∉
      ([".pdf".data, ".txt".data, ".doc".data, ".docx".data] : List (List Char))) :
    (∀ ex2 : Extractors, process_file ex2 st f = (.unsupported, st)) ∧
      processBatch ex (fs1 ++ f :: fs2) st = processBatch ex (fs1 ++ fs2) st ∧
      ∀ f1 f2 : RawFile,
        strToLower (pathSuffix f1.name) = ".doc".data →
        strToLower (pathSuffix f2.name) = ".docx".data →
        f1.bytes = f2.bytes →
        (process_file ex st f1).1 = (process_file ex st f2).1 ∧
          (process_file ex st f1).2.reports.map reportCore =
            (process_file ex st f2).2.reports.map reportCore := by
  refine ⟨fun ex2 => process_file_unsupported ex2 st f h, ?_,
    fun f1 f2 h1 h2 hb => process_file_doc_docx ex st f1 f2 h1 h2 hb⟩
  apply processBatch_skip
  intro s _
  rw [process_file_unsupported ex s f h]

/-- Witness for C8: `report.xls` is rejected while the sibling text
file still processes, and a concrete `.doc`/`.docx` pair is treated
identically. -/
theorem C8_unsupported_format_witness :
    process_file exW stEmpty fXls = (ProcResult.unsupported, stEmpty) ∧
      processBatch exW ([] ++ fXls :: [fTxt]) stEmpty =
        processBatch exW ([] ++ [fTxt]) stEmpty ∧
      (process_file exW stEmpty fDoc).1 = (process_file exW stEmpty fDocx).1 ∧
      (process_file exW stEmpty fDoc).2.reports.map reportCore =
        (process_file exW stEmpty fDocx).2.reports.map reportCore :=
  ⟨(C8_unsupported_format exW stEmpty fXls [] [fTxt] (by decide)).1 exW,
   (C8_unsupported_format exW stEmpty fXls [] [fTxt] (by decide)).2.1,
   ((C8_unsupported_format exW stEmpty fXls [] [fTxt] (by decide)).2.2 fDoc fDocx
      rfl rfl rfl).1,
   ((C8_unsupported_format exW stEmpty fXls [] [fTxt] (by decide)).2.2 fDoc fDocx
      rfl rfl rfl).2⟩

/-- Claim C9: summary generation over zero records returns the fixed
sentinel without touching the state, and whenever the summary (with its
average-sentences division) is actually computed the report count is
non-empty, so the divisor is never zero. -/
theorem C9_zero_reports (now : List Char) (st : AnalyzerState) (h : st.reports = []) :
    generate_summary now st = .ok ("No reports have been processed yet.".data, st) ∧
      ∀ (st2 : AnalyzerState) (s : SummaryData), st2.reports ≠ [] →
        buildSummary st2.reports = .ok s →
        (st2.reports.length : ℚ) ≠ 0 ∧
          s.avg_sentences_per_report =
            ((st2.reports.map (fun r => (r.metadata.sentence_count : ℚ))).sum) /
              (st2.reports.length : ℚ) := by
  constructor
  · rw [generate_summary, if_pos (by simp [h])]
  · intro st2 s hne hb
    refine ⟨?_, ?_⟩
    · simp only [ne_eq, Nat.cast_eq_zero, List.length_eq_zero]
      exact hne
    · simp only [buildSummary] at hb
      cases hc : collectFindings initFindingSets st2.reports with
      | error e =>
        rw [hc] at hb
        simp at hb
      | ok kf =>
        rw [hc] at hb
        injection hb with h2
        rw [← h2]

/-- Witness for C9: the sentinel on the fresh analyzer. -/
theorem C9_zero_reports_witness :
    generate_summary "t".data stEmpty =
      .ok ("No reports have been processed yet.".data, stEmpty) :=
  (C9_zero_reports "t".data stEmpty rfl).1

/-- Claim C10: a record is appended if and only if `process_file`
returns success; every failure path (unsupported suffix or caught
exception) leaves the stored state exactly as it was. -/
theorem C10_append_iff_success (ex : Extractors) (st : AnalyzerState) (f : RawFile) :
    ((process_file ex st f).1 = .success →
      ∃ rep, (process_file ex st f).2 = { st with reports := st.reports ++ [rep] }) ∧
    ((process_file ex st f).1 ≠ .success → (process_file ex st f).2 = st) := by
  rcases process_file_cases ex st f with ⟨h1, h2⟩ | ⟨h1, h2⟩
  · exact ⟨fun _ => h2, fun hn => absurd h1 hn⟩
  · exact ⟨fun hs => absurd hs h1, fun _ => h2⟩

/-- Witness for C10: a successful text-file processing appends exactly
one record. -/
theorem C10_append_iff_success_witness :
    (process_file exW stEmpty fTxt).1 = ProcResult.success ∧
      ∃ rep, (process_file exW stEmpty fTxt).2 =
        { stEmpty with reports := stEmpty.reports ++ [rep] } :=
  ⟨rfl, (C10_append_iff_success exW stEmpty fTxt).1 rfl⟩

/-- Claim C3: over any collection of well-keyed document records,
summary generation succeeds, stores the built summary, and each
category of the summary findings is a lexicographically sorted,
duplicate-free list containing a string exactly when some record's
findings for that category contain it (a case-sensitive exact-string
set union). -/
theorem C3_summary_union (st : AnalyzerState)
    (hkeys : ∀ r ∈ st.reports, r.key_findings.map Prod.fst = categoryNames) :
    ∃ s, buildSummary st.reports = .ok s ∧
      (st.reports ≠ [] → ∀ now, generate_summary now st =
        .ok (format_summary now (some s), { st with summary := some s })) ∧
      s.key_findings.map Prod.fst = categoryNames ∧
      ∀ k, List.Pairwise (fun a b => lexLe a b = true) (findGet s.key_findings k) ∧
        (findGet s.key_findings k).Nodup ∧
        ∀ x, x ∈ findGet s.key_findings k ↔
          ∃ r ∈ st.reports, x ∈ findGet r.key_findings k := by
  obtain ⟨s, h1, h2, _, _, h5⟩ := buildSummary_findings st.reports hkeys
  refine ⟨s, h1, ?_, h2, fun k => ⟨(h5 k).1, (h5 k).2.1, (h5 k).2.2⟩⟩
  intro hne now
  rw [generate_summary, if_neg (by simp [hne]), h1]

/-- A record whose only finding is the diagnosis `Flu`. -/
def fluReport : Report :=
  { name := "one.txt".data
    content := "diagnosis: Flu".data
    type := ".txt".data
    key_findings :=
      [("diagnoses", ["Flu".data]), ("medications", []), ("vitals", []),
       ("lab_results", []), ("recommendations", [])]
    metadata := { word_count := 2, character_count := 14, sentence_count := 1 } }

/-- A record whose findings are the diagnoses `Flu` and `Cold`. -/
def fluColdReport : Report :=
  { name := "two.txt".data
    content := "diagnosis: Flu diagnosis: Cold".data
    type := ".txt".data
    key_findings :=
      [("diagnoses", ["Flu".data, "Cold".data]), ("medications", []), ("vitals", []),
       ("lab_results", []), ("recommendations", [])]
    metadata := { word_count := 4, character_count := 30, sentence_count := 1 } }

/-- The two-record state of the C3 scenario. -/
def c3State : AnalyzerState :=
  { reports := [fluReport, fluColdReport], summary := none, findings_patterns := [] }

unseal List.merge List.mergeSort in
/-- Witness for C3: both scenario records contain `Flu`, and the
aggregated diagnoses category is `["Cold", "Flu"]` — sorted, with the
shared finding kept exactly once. -/
theorem C3_summary_union_witness :
    (∃ s, buildSummary c3State.reports = .ok s ∧
      (c3State.reports ≠ [] → ∀ now, generate_summary now c3State =
        .ok (format_summary now (some s), { c3State with summary := some s })) ∧
      s.key_findings.map Prod.fst = categoryNames ∧
      ∀ k, List.Pairwise (fun a b => lexLe a b = true) (findGet s.key_findings k) ∧
        (findGet s.key_findings k).Nodup ∧
        ∀ x, x ∈ findGet s.key_findings k ↔
          ∃ r ∈ c3State.reports, x ∈ findGet r.key_findings k) ∧
    (buildSummary c3State.reports).toOption.map
      (fun s => findGet s.key_findings "diagnoses") =
      some ["Cold".data, "Flu".data] :=
  ⟨C3_summary_union c3State (by decide), by rfl⟩
